import Mathlib

/-!
Verification of the edit-distance core of `lev-diff` (`src/main.rs`).

The program builds an `(n1+1) × (n2+1)` dynamic-programming table of
`Option (cost, Action)` cells (`lev`, lines 62-116), then backtracks from
the bottom-right corner to the origin (`backtrack_actions`, lines 43-60),
reverses the buffer and drops the `(0,0)` sentinel to obtain the edit
script.  Elements are text lines; the program is invoked on `&str` lines,
so the element type is fixed to `String` here (the generic `T : Eq + ToString`
is instantiated the way `main` uses it, with `to_string` the identity).

The mutable `Vec<Vec<Option<(usize, Action)>>>` is embedded as a function
table `Nat → Nat → Option (Nat × Action)` updated pointwise, the `for`
loops as structural recursions in the same iteration order, and each
`.unwrap()` on a cell read as a bind in the `Option` monad, so that a
`None` read (a Rust panic) propagates to the final result.  `dump` only
prints; its observable output is reified by the `*Tr` variants, which
thread the list of table snapshots that the trace flag would emit.
-/

namespace LevDiff

/-- Text payload of a diffed element; the program diffs lines of text. -/
def blankLine : String := ""

/-- Edit operation, translated from `enum Action` (main.rs lines 12-18). -/
inductive Action where
  | Add : Nat → String → Action
  | Remove : Nat → String → Action
  | Substitute : Nat → String → String → Action
  | Ignore : Nat → String → Action
deriving DecidableEq

/-- Indexing `s[i]` on the input sequences, as used inside the loops of
`lev` where the index is always in bounds. -/
def elemAt (l : List String) (i : Nat) : String := l.getD i blankLine

/-- Semantics of Rust `Iterator::min_by_key` on a non-empty list given as
head and tail: the first element of minimal key is kept (a later element
replaces the accumulator only when strictly smaller). -/
def pickMin (x : Nat × Action) (xs : List (Nat × Action)) : Nat × Action :=
  xs.foldl (fun acc y => if y.1 < acc.1 then y else acc) x

/-- Rust `Iterator::min_by_key` on a possibly-empty list (main.rs line 105). -/
def minByFirst : List (Nat × Action) → Option (Nat × Action)
  | [] => none
  | x :: xs => some (pickMin x xs)

/-- Row `0` of the DP recurrence: cell `(0,0)` is the sentinel
`(0, Ignore(0, ""))` (line 70), cell `(0, j+1)` is `(j+1, Add(j+1, s2[j]))`
(lines 72-76). -/
def levRow0 (s2 : List String) : Nat → Nat × Action
  | 0 => (0, Action.Ignore 0 blankLine)
  | j+1 => (j+1, Action.Add (j+1) (elemAt s2 j))

/-- Row `i+1` of the DP recurrence, given row `i` as `prev`: column `0` is
`(i+1, Remove(i+1, s1[i]))` (lines 77-81), and the interior cell `(i+1, j+1)`
follows lines 82-108: on equal elements the diagonal cost with an `Ignore`,
otherwise the first-seen minimum of the `Remove`, `Add`, `Substitute`
candidates, in that literal order. -/
def levRowSucc (s1 s2 : List String) (i : Nat) (prev : Nat → Nat × Action) : Nat → Nat × Action
  | 0 => (i+1, Action.Remove (i+1) (elemAt s1 i))
  | j+1 =>
    if elemAt s1 i = elemAt s2 j then
      ((prev j).1, Action.Ignore (j+1) (elemAt s1 i))
    else
      pickMin (1 + (prev (j+1)).1, Action.Remove (i+1) (elemAt s1 i))
        [(1 + (levRowSucc s1 s2 i prev j).1, Action.Add (j+1) (elemAt s2 j)),
         (1 + (prev j).1, Action.Substitute (j+1) (elemAt s1 i) (elemAt s2 j))]

/-- All rows of the DP recurrence, by primary recursion on the row index. -/
def levRows (s1 s2 : List String) : Nat → Nat → Nat × Action
  | 0 => levRow0 s2
  | i+1 => levRowSucc s1 s2 i (levRows s1 s2 i)

/-- Value `(cost, action)` that the fill pass of `lev` stores at cell
`(i, j)`; the recurrence of lines 70-109 written as a pure total function.
The `fill*` functions below are proved to populate the table with exactly
these values. -/
def levCell (s1 s2 : List String) (i j : Nat) : Nat × Action := levRows s1 s2 i j

/-- DP table: the `Vec<Vec<Option<(usize, Action)>>>` of `lev`, as a map
from indices to cells. -/
def Table : Type := Nat → Nat → Option (Nat × Action)

/-- Table before any write: `vec![None; n2 + 1]` per row (lines 65-68). -/
def emptyTable : Table := fun _ _ => none

/-- Assignment `actions[i][j] = v` (the stored value is an `Option`, as in
line 90 where the result of `min_by_key(...).cloned()` is stored). -/
def setCell (t : Table) (i j : Nat) (v : Option (Nat × Action)) : Table :=
  fun p q => if p = i ∧ q = j then v else t p q

/-- Loop of lines 72-76: writes cells `(0, 1) .. (0, m)` in order. -/
def fillRow0 (s2 : List String) (t : Table) : Nat → Table
  | 0 => t
  | j+1 => setCell (fillRow0 s2 t j) 0 (j+1) (some (j+1, Action.Add (j+1) (elemAt s2 j)))

/-- Loop of lines 77-81: writes cells `(1, 0) .. (m, 0)` in order. -/
def fillCol0 (s1 : List String) (t : Table) : Nat → Table
  | 0 => t
  | i+1 => setCell (fillCol0 s1 t i) (i+1) 0 (some (i+1, Action.Remove (i+1) (elemAt s1 i)))

/-- Body of the interior double loop (lines 84-107) computing cell
`(i+1, j+1)`: on equal elements, read the diagonal cell, `unwrap` its cost
and store an `Ignore`; otherwise read the three neighbour cells (in the
literal order of the `vec![...]`: up for `Remove`, left for `Add`,
diagonal for `Substitute`), `unwrap` each cost, and store the result of
`min_by_key`.  Each `unwrap` is a bind: a `None` cell read yields `none`. -/
def fillCell (s1 s2 : List String) (t : Table) (i j : Nat) : Option Table :=
  if elemAt s1 i = elemAt s2 j then
    ((t i j).map Prod.fst).map fun x =>
      setCell t (i+1) (j+1) (some (x, Action.Ignore (j+1) (elemAt s1 i)))
  else
    ((t i (j+1)).map Prod.fst).bind fun cR =>
      ((t (i+1) j).map Prod.fst).bind fun cA =>
        ((t i j).map Prod.fst).bind fun cS =>
          some (setCell t (i+1) (j+1) (minByFirst
            [(1 + cR, Action.Remove (i+1) (elemAt s1 i)),
             (1 + cA, Action.Add (j+1) (elemAt s2 j)),
             (1 + cS, Action.Substitute (j+1) (elemAt s1 i) (elemAt s2 j))]))

/-- Inner loop `for n2 in 1..n2+1` (line 83) over columns `1 .. m` of row
`i+1`. -/
def fillRowCells (s1 s2 : List String) (t : Table) (i : Nat) : Nat → Option Table
  | 0 => some t
  | j+1 => (fillRowCells s1 s2 t i j).bind fun u => fillCell s1 s2 u i j

/-- Outer loop `for n1 in 1..n1+1` (line 82) over rows `1 .. m`. -/
def fillAll (s1 s2 : List String) (t : Table) : Nat → Option Table
  | 0 => some t
  | i+1 => (fillAll s1 s2 t i).bind fun u => fillRowCells s1 s2 u i s2.length

/-- Table state after the sentinel write and the row-0 / column-0
initialization loops (lines 70-81). -/
def initTable (s1 s2 : List String) : Table :=
  fillCol0 s1
    (fillRow0 s2 (setCell emptyTable 0 0 (some (0, Action.Ignore 0 blankLine))) s2.length)
    s1.length

/-- Full fill pass of `lev` (lines 62-109); `none` would mean some
`unwrap` panicked. -/
def buildTable (s1 s2 : List String) : Option Table :=
  fillAll s1 s2 (initTable s1 s2) s1.length

/-- Translation of `backtrack_actions` (lines 43-60).  The arguments are
the mutable locals `n1, n2`, initially the row and column counts of the
table; while both are positive the cell `(n1-1, n2-1)` is read and
unwrapped, its action pushed, and the coordinates decremented according to
the action.  The result is the reconstruction buffer in push order; a
`None` cell read (the `unwrap` panic) yields `none`. -/
def backtrack_actions (t : Table) : Nat → Nat → Option (List Action)
  | 0, _ => some []
  | _+1, 0 => some []
  | i+1, j+1 =>
    match t i j with
    | none => none
    | some c =>
      match c.2 with
      | Action.Add _ _ => (backtrack_actions t (i+1) j).map (c.2 :: ·)
      | Action.Remove _ _ => (backtrack_actions t i (j+1)).map (c.2 :: ·)
      | _ => (backtrack_actions t i j).map (c.2 :: ·)
termination_by i j => (i, j)

/-- Translation of `lev` (lines 62-116): fill the table, backtrack from
the corner, then `.rev().skip(1)` — reverse the buffer and drop the
`(0,0)` sentinel. -/
def lev (s1 s2 : List String) : Option (List Action) :=
  (buildTable s1 s2).bind fun t =>
    (backtrack_actions t (s1.length + 1) (s2.length + 1)).map fun l => l.reverse.drop 1

/-- Column recursion of the pure backtracking walk on row `i+1` of local
coordinates, reading cells from `levCell`; `prev` is the walk for local
row `i`. -/
def btCol (s1 s2 : List String) (i : Nat) (prev : Nat → List Action) : Nat → List Action
  | 0 => []
  | j+1 =>
    (levCell s1 s2 i j).2 ::
      (match (levCell s1 s2 i j).2 with
       | Action.Add _ _ => btCol s1 s2 i prev j
       | Action.Remove _ _ => prev (j+1)
       | _ => prev j)

/-- Pure mirror of `backtrack_actions` over the recurrence values
`levCell`; proved below to agree with `backtrack_actions` on the table
that `buildTable` produces. -/
def btPure (s1 s2 : List String) : Nat → Nat → List Action
  | 0 => fun _ => []
  | i+1 => btCol s1 s2 i (btPure s1 s2 i)

/-- Chronological edit script obtained by walking back from cell `(i, j)`:
reverse of the reconstruction buffer with the sentinel dropped. -/
def chrScript (s1 s2 : List String) (i j : Nat) : List Action :=
  (btPure s1 s2 (i+1) (j+1)).reverse.drop 1

/-- Script returned by `lev` (the value inside the `some`). -/
def levPure (s1 s2 : List String) : List Action :=
  chrScript s1 s2 s1.length s2.length

/-- Column recursion for the final values of the loop counters of
`backtrack_actions` when its `while` loop exits. -/
def exitCol (s1 s2 : List String) (i : Nat) (prev : Nat → Nat × Nat) : Nat → Nat × Nat
  | 0 => (i+1, 0)
  | j+1 =>
    match (levCell s1 s2 i j).2 with
    | Action.Add _ _ => exitCol s1 s2 i prev j
    | Action.Remove _ _ => prev (j+1)
    | _ => prev j

/-- Final values of the local counters `(n1, n2)` of `backtrack_actions`
at loop exit, as a function of their initial values. -/
def backtrackExit (s1 s2 : List String) : Nat → Nat → Nat × Nat
  | 0 => fun j => (0, j)
  | i+1 => exitCol s1 s2 i (backtrackExit s1 s2 i)

/-- Applying an edit script to a sequence, following the spec wording
(§8 round-trip): in order, skip the element on `Ignore`, insert the
carried text on `Add`, delete the element on `Remove`, replace the
element with the new text on `Substitute`; the whole input must be
consumed. -/
def applyScript : List Action → List String → Option (List String)
  | [], [] => some []
  | [], _ :: _ => none
  | Action.Add _ t :: rest, xs => (applyScript rest xs).map (t :: ·)
  | Action.Remove _ _ :: _, [] => none
  | Action.Remove _ _ :: rest, _ :: xs => applyScript rest xs
  | Action.Substitute _ _ _ :: _, [] => none
  | Action.Substitute _ _ u :: rest, _ :: xs => (applyScript rest xs).map (u :: ·)
  | Action.Ignore _ _ :: _, [] => none
  | Action.Ignore _ _ :: rest, x :: xs => (applyScript rest xs).map (x :: ·)

/-- Whether an operation is an `Ignore`. -/
def isIgnoreAct : Action → Bool
  | Action.Ignore _ _ => true
  | _ => false

/-- Number of non-`Ignore` operations of a script; this is also its total
cost under unit cost for insert, delete and substitute and zero cost for a
match. -/
def scriptCost (l : List Action) : Nat := (l.filter fun a => !(isIgnoreAct a)).length

/-- Whether an operation consumes an element of sequence 1. -/
def eats1 : Action → Bool
  | Action.Add _ _ => false
  | _ => true

/-- Whether an operation consumes an element of sequence 2. -/
def eats2 : Action → Bool
  | Action.Remove _ _ => false
  | _ => true

/-- Number of sequence-1 elements consumed by a script. -/
def consumed1 (l : List Action) : Nat := (l.filter eats1).length

/-- Number of sequence-2 elements consumed by a script. -/
def consumed2 (l : List Action) : Nat := (l.filter eats2).length

/-- Modelled from the spec: `c` is the true Levenshtein distance between
`s1` and `s2` — the minimum number of `Add`/`Remove`/`Substitute`
operations (each of unit cost, `Ignore` costing zero) over all edit
scripts transforming `s1` into `s2`. -/
def IsLevDistance (s1 s2 : List String) (c : Nat) : Prop :=
  (∃ e, applyScript e s1 = some s2 ∧ scriptCost e = c) ∧
    ∀ e, applyScript e s1 = some s2 → c ≤ scriptCost e

/-- Agreement invariant of the fill pass: every cell of column `0`, of a
row before `r`, or of row `r` up to column `c` (within the table bounds)
holds exactly the recurrence value. -/
def Agrees (s1 s2 : List String) (t : Table) (r c : Nat) : Prop :=
  ∀ p q, p ≤ s1.length → q ≤ s2.length → (q = 0 ∨ p < r ∨ (p = r ∧ q ≤ c)) →
    t p q = some (levCell s1 s2 p q)

/-- Observable content of one `dump` call: the table cells in row-major
order, for a table with `n1+1` rows and `n2+1` columns. -/
def snapshot (n1 n2 : Nat) (t : Table) : List (List (Option (Nat × Action))) :=
  (List.range (n1+1)).map fun p => (List.range (n2+1)).map fun q => t p q

/-- Output of `dump` (lines 20-41): one table snapshot when the trace
flag is set, nothing otherwise. -/
def dumpLog (b : Bool) (n1 n2 : Nat) (t : Table) : List (List (List (Option (Nat × Action)))) :=
  if b then [snapshot n1 n2 t] else []

/-- Row-0 loop with the `dump(&actions)` call after every write. -/
def fillRow0Tr (b : Bool) (s2 : List String) (n1 n2 : Nat)
    (st : Table × List (List (List (Option (Nat × Action))))) :
    Nat → Table × List (List (List (Option (Nat × Action))))
  | 0 => st
  | j+1 =>
    let st' := fillRow0Tr b s2 n1 n2 st j
    let u := setCell st'.1 0 (j+1) (some (j+1, Action.Add (j+1) (elemAt s2 j)))
    (u, st'.2 ++ dumpLog b n1 n2 u)

/-- Column-0 loop with the `dump(&actions)` call after every write. -/
def fillCol0Tr (b : Bool) (s1 : List String) (n1 n2 : Nat)
    (st : Table × List (List (List (Option (Nat × Action))))) :
    Nat → Table × List (List (List (Option (Nat × Action))))
  | 0 => st
  | i+1 =>
    let st' := fillCol0Tr b s1 n1 n2 st i
    let u := setCell st'.1 (i+1) 0 (some (i+1, Action.Remove (i+1) (elemAt s1 i)))
    (u, st'.2 ++ dumpLog b n1 n2 u)

/-- Interior cell computation with the `dump(&actions)` call after the
write. -/
def fillCellTr (b : Bool) (s1 s2 : List String) (n1 n2 : Nat)
    (st : Table × List (List (List (Option (Nat × Action))))) (i j : Nat) :
    Option (Table × List (List (List (Option (Nat × Action))))) :=
  (fillCell s1 s2 st.1 i j).map fun u => (u, st.2 ++ dumpLog b n1 n2 u)

/-- Inner interior loop with tracing. -/
def fillRowCellsTr (b : Bool) (s1 s2 : List String) (n1 n2 : Nat)
    (st : Table × List (List (List (Option (Nat × Action))))) (i : Nat) :
    Nat → Option (Table × List (List (List (Option (Nat × Action)))))
  | 0 => some st
  | j+1 => (fillRowCellsTr b s1 s2 n1 n2 st i j).bind fun st' => fillCellTr b s1 s2 n1 n2 st' i j

/-- Outer interior loop with tracing. -/
def fillAllTr (b : Bool) (s1 s2 : List String) (n1 n2 : Nat)
    (st : Table × List (List (List (Option (Nat × Action))))) :
    Nat → Option (Table × List (List (List (Option (Nat × Action)))))
  | 0 => some st
  | i+1 => (fillAllTr b s1 s2 n1 n2 st i).bind fun st' => fillRowCellsTr b s1 s2 n1 n2 st' i s2.length

/-- Run of `lev` with the trace flag reified: first component is the
returned script (as in `lev`), second is the sequence of table snapshots
that `dump` would print. -/
def levTr (b : Bool) (s1 s2 : List String) :
    Option (List Action) × List (List (List (Option (Nat × Action)))) :=
  let n1 := s1.length
  let n2 := s2.length
  let st0 : Table × List (List (List (Option (Nat × Action)))) :=
    (setCell emptyTable 0 0 (some (0, Action.Ignore 0 blankLine)), [])
  let st1 := fillRow0Tr b s2 n1 n2 st0 n2
  let st2 := fillCol0Tr b s1 n1 n2 st1 n1
  match fillAllTr b s1 s2 n1 n2 st2 n1 with
  | none => (none, st2.2)
  | some st3 =>
    ((backtrack_actions st3.1 (n1 + 1) (n2 + 1)).map fun l => l.reverse.drop 1, st3.2)

/-- Concrete line used by the evaluation examples. -/
def litA : String := "a"

/-- Concrete line used by the evaluation examples. -/
def litB : String := "b"

theorem setCell_self (t : Table) (i j : Nat) (v : Option (Nat × Action)) :
    setCell t i j v i j = v := by
  simp [setCell]

theorem setCell_ne (t : Table) (i j : Nat) (v : Option (Nat × Action)) {p q : Nat}
    (h : ¬(p = i ∧ q = j)) : setCell t i j v p q = t p q := by
  simp only [setCell, if_neg h]

theorem levCell_zz (s1 s2 : List String) :
    levCell s1 s2 0 0 = (0, Action.Ignore 0 blankLine) := rfl

theorem levCell_zs (s1 s2 : List String) (j : Nat) :
    levCell s1 s2 0 (j+1) = (j+1, Action.Add (j+1) (elemAt s2 j)) := rfl

theorem levCell_sz (s1 s2 : List String) (i : Nat) :
    levCell s1 s2 (i+1) 0 = (i+1, Action.Remove (i+1) (elemAt s1 i)) := rfl

theorem levCell_ss (s1 s2 : List String) (i j : Nat) :
    levCell s1 s2 (i+1) (j+1) =
      if elemAt s1 i = elemAt s2 j then
        ((levCell s1 s2 i j).1, Action.Ignore (j+1) (elemAt s1 i))
      else
        pickMin (1 + (levCell s1 s2 i (j+1)).1, Action.Remove (i+1) (elemAt s1 i))
          [(1 + (levCell s1 s2 (i+1) j).1, Action.Add (j+1) (elemAt s2 j)),
           (1 + (levCell s1 s2 i j).1, Action.Substitute (j+1) (elemAt s1 i) (elemAt s2 j))] := rfl

theorem pickMin3_cases (x y z : Nat × Action) :
    pickMin x [y, z] = x ∨ pickMin x [y, z] = y ∨ pickMin x [y, z] = z := by
  simp only [pickMin, List.foldl]
  split_ifs <;> simp

theorem pickMin3_fst (x y z : Nat × Action) :
    (pickMin x [y, z]).1 = min x.1 (min y.1 z.1) := by
  simp only [pickMin, List.foldl]
  split_ifs <;> omega

theorem levCost_zl (s1 s2 : List String) (j : Nat) : (levCell s1 s2 0 j).1 = j := by
  cases j <;> rfl

theorem levCost_zr (s1 s2 : List String) (i : Nat) : (levCell s1 s2 i 0).1 = i := by
  cases i <;> rfl

theorem levCost_ss (s1 s2 : List String) (i j : Nat) :
    (levCell s1 s2 (i+1) (j+1)).1 =
      if elemAt s1 i = elemAt s2 j then (levCell s1 s2 i j).1
      else
        min (1 + (levCell s1 s2 i (j+1)).1)
          (min (1 + (levCell s1 s2 (i+1) j).1) (1 + (levCell s1 s2 i j).1)) := by
  rw [levCell_ss]
  split_ifs with h
  · rfl
  · rw [pickMin3_fst]

theorem shape_add (s1 s2 : List String) {i j : Nat} {p : Nat} {t : String}
    (h : (levCell s1 s2 i j).2 = Action.Add p t) :
    ∃ j', j = j' + 1 ∧ p = j' + 1 ∧ t = elemAt s2 j' ∧
      (levCell s1 s2 i j).1 = (levCell s1 s2 i j').1 + 1 := by
  match i, j with
  | 0, 0 => simp [levCell_zz] at h
  | 0, j+1 =>
    rw [levCell_zs] at h
    injection h with h1 h2
    exact ⟨j, rfl, h1.symm, h2.symm, by simp [levCost_zl]⟩
  | i+1, 0 => simp [levCell_sz] at h
  | i+1, j+1 =>
    rw [levCell_ss] at h
    split_ifs at h with heq
    rcases pickMin3_cases (1 + (levCell s1 s2 i (j+1)).1, Action.Remove (i+1) (elemAt s1 i))
      (1 + (levCell s1 s2 (i+1) j).1, Action.Add (j+1) (elemAt s2 j))
      (1 + (levCell s1 s2 i j).1, Action.Substitute (j+1) (elemAt s1 i) (elemAt s2 j))
      with hc | hc | hc <;> rw [hc] at h
    · simp at h
    · injection h with h1 h2
      have hcost : (levCell s1 s2 (i+1) (j+1)).1 = 1 + (levCell s1 s2 (i+1) j).1 := by
        rw [levCell_ss, if_neg heq, hc]
      exact ⟨j, rfl, h1.symm, h2.symm, by omega⟩
    · simp at h

theorem shape_remove (s1 s2 : List String) {i j : Nat} {p : Nat} {t : String}
    (h : (levCell s1 s2 i j).2 = Action.Remove p t) :
    ∃ i', i = i' + 1 ∧ p = i' + 1 ∧ t = elemAt s1 i' ∧
      (levCell s1 s2 i j).1 = (levCell s1 s2 i' j).1 + 1 := by
  match i, j with
  | 0, 0 => simp [levCell_zz] at h
  | 0, j+1 => simp [levCell_zs] at h
  | i+1, 0 =>
    rw [levCell_sz] at h
    injection h with h1 h2
    exact ⟨i, rfl, h1.symm, h2.symm, by simp [levCost_zr]⟩
  | i+1, j+1 =>
    rw [levCell_ss] at h
    split_ifs at h with heq
    rcases pickMin3_cases (1 + (levCell s1 s2 i (j+1)).1, Action.Remove (i+1) (elemAt s1 i))
      (1 + (levCell s1 s2 (i+1) j).1, Action.Add (j+1) (elemAt s2 j))
      (1 + (levCell s1 s2 i j).1, Action.Substitute (j+1) (elemAt s1 i) (elemAt s2 j))
      with hc | hc | hc <;> rw [hc] at h
    · injection h with h1 h2
      have hcost : (levCell s1 s2 (i+1) (j+1)).1 = 1 + (levCell s1 s2 i (j+1)).1 := by
        rw [levCell_ss, if_neg heq, hc]
      exact ⟨i, rfl, h1.symm, h2.symm, by omega⟩
    · simp at h
    · simp at h

theorem shape_sub (s1 s2 : List String) {i j : Nat} {p : Nat} {t u : String}
    (h : (levCell s1 s2 i j).2 = Action.Substitute p t u) :
    ∃ i' j', i = i' + 1 ∧ j = j' + 1 ∧ p = j' + 1 ∧ t = elemAt s1 i' ∧ u = elemAt s2 j' ∧
      (levCell s1 s2 i j).1 = (levCell s1 s2 i' j').1 + 1 := by
  match i, j with
  | 0, 0 => simp [levCell_zz] at h
  | 0, j+1 => simp [levCell_zs] at h
  | i+1, 0 => simp [levCell_sz] at h
  | i+1, j+1 =>
    rw [levCell_ss] at h
    split_ifs at h with heq
    rcases pickMin3_cases (1 + (levCell s1 s2 i (j+1)).1, Action.Remove (i+1) (elemAt s1 i))
      (1 + (levCell s1 s2 (i+1) j).1, Action.Add (j+1) (elemAt s2 j))
      (1 + (levCell s1 s2 i j).1, Action.Substitute (j+1) (elemAt s1 i) (elemAt s2 j))
      with hc | hc | hc <;> rw [hc] at h
    · simp at h
    · simp at h
    · injection h with h1 h2 h3
      have hcost : (levCell s1 s2 (i+1) (j+1)).1 = 1 + (levCell s1 s2 i j).1 := by
        rw [levCell_ss, if_neg heq, hc]
      exact ⟨i, j, rfl, rfl, h1.symm, h2.symm, h3.symm, by omega⟩

theorem shape_ignore (s1 s2 : List String) {i j : Nat} {p : Nat} {t : String}
    (h : (levCell s1 s2 i j).2 = Action.Ignore p t) :
    (i = 0 ∧ j = 0 ∧ p = 0 ∧ t = blankLine) ∨
    (∃ i' j', i = i' + 1 ∧ j = j' + 1 ∧ p = j' + 1 ∧ t = elemAt s1 i' ∧
      elemAt s1 i' = elemAt s2 j' ∧ (levCell s1 s2 i j).1 = (levCell s1 s2 i' j').1) := by
  match i, j with
  | 0, 0 =>
    rw [levCell_zz] at h
    injection h with h1 h2
    exact Or.inl ⟨rfl, rfl, h1.symm, h2.symm⟩
  | 0, j+1 => simp [levCell_zs] at h
  | i+1, 0 => simp [levCell_sz] at h
  | i+1, j+1 =>
    rw [levCell_ss] at h
    split_ifs at h with heq
    · injection h with h1 h2
      refine Or.inr ⟨i, j, rfl, rfl, h1.symm, h2.symm, heq, ?_⟩
      rw [levCost_ss, if_pos heq]
    · rcases pickMin3_cases (1 + (levCell s1 s2 i (j+1)).1, Action.Remove (i+1) (elemAt s1 i))
        (1 + (levCell s1 s2 (i+1) j).1, Action.Add (j+1) (elemAt s2 j))
        (1 + (levCell s1 s2 i j).1, Action.Substitute (j+1) (elemAt s1 i) (elemAt s2 j))
        with hc | hc | hc <;> rw [hc] at h <;> simp at h

theorem lipsAux (s1 s2 : List String) :
    ∀ n i j, i + j ≤ n →
      (levCell s1 s2 i (j+1)).1 ≤ (levCell s1 s2 i j).1 + 1 ∧
      (levCell s1 s2 (i+1) j).1 ≤ (levCell s1 s2 i j).1 + 1 ∧
      (levCell s1 s2 i j).1 ≤ (levCell s1 s2 i (j+1)).1 + 1 ∧
      (levCell s1 s2 i j).1 ≤ (levCell s1 s2 (i+1) j).1 + 1 := by
  intro n
  induction n with
  | zero =>
    intro i j h
    have hi : i = 0 := by omega
    have hj : j = 0 := by omega
    subst hi; subst hj
    refine ⟨?_, ?_, ?_, ?_⟩ <;> simp [levCost_zl, levCost_zr]
  | succ n ih =>
    intro i j h
    refine ⟨?_, ?_, ?_, ?_⟩
    · match i with
      | 0 => simp [levCost_zl]
      | k+1 =>
        rw [levCost_ss s1 s2 k j]
        split_ifs with heq
        · exact (ih k j (by omega)).2.2.2
        · omega
    · match j with
      | 0 => simp [levCost_zr]
      | l+1 =>
        rw [levCost_ss s1 s2 i l]
        split_ifs with heq
        · exact (ih i l (by omega)).2.2.1
        · omega
    · match i with
      | 0 => simp only [levCost_zl]; omega
      | k+1 =>
        rw [levCost_ss s1 s2 k j]
        split_ifs with heq
        · exact (ih k j (by omega)).2.1
        · have hB := (ih k j (by omega)).2.1
          have hC := (ih k j (by omega)).2.2.1
          omega
    · match j with
      | 0 => simp only [levCost_zr]; omega
      | l+1 =>
        rw [levCost_ss s1 s2 i l]
        split_ifs with heq
        · exact (ih i l (by omega)).1
        · have hA := (ih i l (by omega)).1
          have hD := (ih i l (by omega)).2.2.2
          omega

theorem lipsDiag (s1 s2 : List String) (i j : Nat) :
    (levCell s1 s2 (i+1) (j+1)).1 ≤ (levCell s1 s2 i j).1 + 1 := by
  rw [levCost_ss]
  split_ifs with heq <;> omega

theorem btPure_zl (s1 s2 : List String) (j : Nat) : btPure s1 s2 0 j = [] := rfl

theorem btPure_sz (s1 s2 : List String) (i : Nat) : btPure s1 s2 (i+1) 0 = [] := rfl

theorem btPure_ss (s1 s2 : List String) (i j : Nat) :
    btPure s1 s2 (i+1) (j+1) =
      (levCell s1 s2 i j).2 ::
        (match (levCell s1 s2 i j).2 with
         | Action.Add _ _ => btPure s1 s2 (i+1) j
         | Action.Remove _ _ => btPure s1 s2 i (j+1)
         | _ => btPure s1 s2 i j) := rfl

theorem btPure_add (s1 s2 : List String) {i j p : Nat} {t : String}
    (h : (levCell s1 s2 i j).2 = Action.Add p t) :
    btPure s1 s2 (i+1) (j+1) = Action.Add p t :: btPure s1 s2 (i+1) j := by
  rw [btPure_ss, h]

theorem btPure_remove (s1 s2 : List String) {i j p : Nat} {t : String}
    (h : (levCell s1 s2 i j).2 = Action.Remove p t) :
    btPure s1 s2 (i+1) (j+1) = Action.Remove p t :: btPure s1 s2 i (j+1) := by
  rw [btPure_ss, h]

theorem btPure_sub (s1 s2 : List String) {i j p : Nat} {t u : String}
    (h : (levCell s1 s2 i j).2 = Action.Substitute p t u) :
    btPure s1 s2 (i+1) (j+1) = Action.Substitute p t u :: btPure s1 s2 i j := by
  rw [btPure_ss, h]

theorem btPure_ignore (s1 s2 : List String) {i j p : Nat} {t : String}
    (h : (levCell s1 s2 i j).2 = Action.Ignore p t) :
    btPure s1 s2 (i+1) (j+1) = Action.Ignore p t :: btPure s1 s2 i j := by
  rw [btPure_ss, h]

theorem btPure_ne (s1 s2 : List String) (i j : Nat) : btPure s1 s2 (i+1) (j+1) ≠ [] := by
  rw [btPure_ss]
  exact List.cons_ne_nil _ _

theorem revdrop_cons (a : Action) {L : List Action} (hL : L ≠ []) :
    ((a :: L).reverse).drop 1 = L.reverse.drop 1 ++ [a] := by
  rw [List.reverse_cons, List.drop_append_of_le_length]
  simpa [Nat.succ_le, List.length_pos] using hL

theorem chr_zero (s1 s2 : List String) : chrScript s1 s2 0 0 = [] := rfl

theorem chr_add (s1 s2 : List String) {i j p : Nat} {t : String}
    (h : (levCell s1 s2 i (j+1)).2 = Action.Add p t) :
    chrScript s1 s2 i (j+1) = chrScript s1 s2 i j ++ [Action.Add p t] := by
  unfold chrScript
  rw [btPure_add s1 s2 h, revdrop_cons _ (btPure_ne s1 s2 i j)]

theorem chr_remove (s1 s2 : List String) {i j p : Nat} {t : String}
    (h : (levCell s1 s2 (i+1) j).2 = Action.Remove p t) :
    chrScript s1 s2 (i+1) j = chrScript s1 s2 i j ++ [Action.Remove p t] := by
  unfold chrScript
  rw [btPure_remove s1 s2 h, revdrop_cons _ (btPure_ne s1 s2 i j)]

theorem chr_sub (s1 s2 : List String) {i j p : Nat} {t u : String}
    (h : (levCell s1 s2 (i+1) (j+1)).2 = Action.Substitute p t u) :
    chrScript s1 s2 (i+1) (j+1) = chrScript s1 s2 i j ++ [Action.Substitute p t u] := by
  unfold chrScript
  rw [btPure_sub s1 s2 h, revdrop_cons _ (btPure_ne s1 s2 i j)]

theorem chr_ignore (s1 s2 : List String) {i j p : Nat} {t : String}
    (h : (levCell s1 s2 (i+1) (j+1)).2 = Action.Ignore p t) :
    chrScript s1 s2 (i+1) (j+1) = chrScript s1 s2 i j ++ [Action.Ignore p t] := by
  unfold chrScript
  rw [btPure_ignore s1 s2 h, revdrop_cons _ (btPure_ne s1 s2 i j)]

theorem scriptCost_append (l1 l2 : List Action) :
    scriptCost (l1 ++ l2) = scriptCost l1 + scriptCost l2 := by
  simp [scriptCost, List.filter_append]

theorem consumed1_append (l1 l2 : List Action) :
    consumed1 (l1 ++ l2) = consumed1 l1 + consumed1 l2 := by
  simp [consumed1, List.filter_append]

theorem consumed2_append (l1 l2 : List Action) :
    consumed2 (l1 ++ l2) = consumed2 l1 + consumed2 l2 := by
  simp [consumed2, List.filter_append]

theorem fillRow0_at (s2 : List String) (t : Table) :
    ∀ m p q, fillRow0 s2 t m p q =
      if p = 0 ∧ 1 ≤ q ∧ q ≤ m then some (q, Action.Add q (elemAt s2 (q-1))) else t p q := by
  intro m
  induction m with
  | zero =>
    intro p q
    rw [if_neg (by omega)]
    rfl
  | succ m ih =>
    intro p q
    by_cases hpq : p = 0 ∧ q = m + 1
    · obtain ⟨hp, hq⟩ := hpq
      subst hp; subst hq
      rw [show fillRow0 s2 t (m+1) =
        setCell (fillRow0 s2 t m) 0 (m+1) (some (m+1, Action.Add (m+1) (elemAt s2 m))) from rfl]
      rw [setCell_self, if_pos (by omega)]
      simp
    · rw [show fillRow0 s2 t (m+1) =
        setCell (fillRow0 s2 t m) 0 (m+1) (some (m+1, Action.Add (m+1) (elemAt s2 m))) from rfl]
      rw [setCell_ne _ _ _ _ hpq, ih]
      by_cases hc : p = 0 ∧ 1 ≤ q ∧ q ≤ m
      · rw [if_pos hc, if_pos (by omega)]
      · rw [if_neg hc, if_neg (by omega)]

theorem fillCol0_at (s1 : List String) (t : Table) :
    ∀ m p q, fillCol0 s1 t m p q =
      if q = 0 ∧ 1 ≤ p ∧ p ≤ m then some (p, Action.Remove p (elemAt s1 (p-1))) else t p q := by
  intro m
  induction m with
  | zero =>
    intro p q
    rw [if_neg (by omega)]
    rfl
  | succ m ih =>
    intro p q
    by_cases hpq : p = m + 1 ∧ q = 0
    · obtain ⟨hp, hq⟩ := hpq
      subst hp; subst hq
      rw [show fillCol0 s1 t (m+1) =
        setCell (fillCol0 s1 t m) (m+1) 0 (some (m+1, Action.Remove (m+1) (elemAt s1 m))) from rfl]
      rw [setCell_self, if_pos (by omega)]
      simp
    · rw [show fillCol0 s1 t (m+1) =
        setCell (fillCol0 s1 t m) (m+1) 0 (some (m+1, Action.Remove (m+1) (elemAt s1 m))) from rfl]
      rw [setCell_ne _ _ _ _ hpq, ih]
      by_cases hc : q = 0 ∧ 1 ≤ p ∧ p ≤ m
      · rw [if_pos hc, if_pos (by omega)]
      · rw [if_neg hc, if_neg (by omega)]

theorem initTable_at (s1 s2 : List String) : Agrees s1 s2 (initTable s1 s2) 0 s2.length := by
  intro p q hp hq hcond
  unfold initTable
  rw [fillCol0_at, fillRow0_at]
  match p, q with
  | p+1, q =>
    have hq0 : q = 0 := by omega
    subst hq0
    rw [if_pos (by omega)]
    rw [levCell_sz]
    simp
  | 0, 0 =>
    rw [if_neg (by omega), if_neg (by omega), setCell_self, levCell_zz]
  | 0, q+1 =>
    rw [if_neg (by omega), if_pos (by omega), levCell_zs]
    simp

theorem fillCell_step (s1 s2 : List String) {t : Table} {i j : Nat}
    (hi : i < s1.length) (hj : j < s2.length) (hAg : Agrees s1 s2 t (i+1) j) :
    fillCell s1 s2 t i j = some (setCell t (i+1) (j+1) (some (levCell s1 s2 (i+1) (j+1)))) ∧
    Agrees s1 s2 (setCell t (i+1) (j+1) (some (levCell s1 s2 (i+1) (j+1)))) (i+1) (j+1) := by
  have h1 : t i j = some (levCell s1 s2 i j) := hAg i j (by omega) (by omega) (by omega)
  have h2 : t i (j+1) = some (levCell s1 s2 i (j+1)) := hAg i (j+1) (by omega) (by omega) (by omega)
  have h3 : t (i+1) j = some (levCell s1 s2 (i+1) j) := hAg (i+1) j (by omega) (by omega) (by omega)
  constructor
  · unfold fillCell
    split_ifs with heq
    · rw [h1]
      rw [levCell_ss, if_pos heq]
      rfl
    · rw [h1, h2, h3]
      rw [levCell_ss, if_neg heq]
      rfl
  · intro p q hp hq hcond
    by_cases hpq : p = i+1 ∧ q = j+1
    · obtain ⟨hp', hq'⟩ := hpq
      subst hp'; subst hq'
      rw [setCell_self]
    · rw [setCell_ne _ _ _ _ hpq]
      exact hAg p q hp hq (by omega)

theorem fillRowCells_inv (s1 s2 : List String) {i : Nat} (hi : i < s1.length) :
    ∀ m, m ≤ s2.length → ∀ t, Agrees s1 s2 t (i+1) 0 →
      ∃ u, fillRowCells s1 s2 t i m = some u ∧ Agrees s1 s2 u (i+1) m := by
  intro m
  induction m with
  | zero =>
    intro _ t hAg
    exact ⟨t, rfl, hAg⟩
  | succ m ih =>
    intro hm t hAg
    obtain ⟨u, hu, hAgu⟩ := ih (by omega) t hAg
    obtain ⟨hc, hAg'⟩ := fillCell_step s1 s2 hi (by omega) hAgu
    refine ⟨_, ?_, hAg'⟩
    rw [show fillRowCells s1 s2 t i (m+1) =
      (fillRowCells s1 s2 t i m).bind (fun u => fillCell s1 s2 u i m) from rfl, hu]
    simpa using hc

theorem agrees_next_row (s1 s2 : List String) {t : Table} {r : Nat}
    (h : Agrees s1 s2 t r s2.length) : Agrees s1 s2 t (r+1) 0 := by
  intro p q hp hq hcond
  exact h p q hp hq (by omega)

theorem fillAll_inv (s1 s2 : List String) :
    ∀ m, m ≤ s1.length → ∀ t, Agrees s1 s2 t 0 s2.length →
      ∃ u, fillAll s1 s2 t m = some u ∧ Agrees s1 s2 u m s2.length := by
  intro m
  induction m with
  | zero =>
    intro _ t h
    exact ⟨t, rfl, h⟩
  | succ m ih =>
    intro hm t h
    obtain ⟨u, hu, hAgu⟩ := ih (by omega) t h
    obtain ⟨v, hv, hAgv⟩ := fillRowCells_inv s1 s2 (show m < s1.length by omega) s2.length
      le_rfl u (agrees_next_row s1 s2 hAgu)
    refine ⟨v, ?_, hAgv⟩
    rw [show fillAll s1 s2 t (m+1) =
      (fillAll s1 s2 t m).bind (fun u => fillRowCells s1 s2 u m s2.length) from rfl, hu]
    simpa using hv

theorem buildTable_some (s1 s2 : List String) :
    ∃ T, buildTable s1 s2 = some T ∧
      ∀ p q, p ≤ s1.length → q ≤ s2.length → T p q = some (levCell s1 s2 p q) := by
  obtain ⟨T, hT, hAg⟩ := fillAll_inv s1 s2 s1.length le_rfl (initTable s1 s2) (initTable_at s1 s2)
  exact ⟨T, hT, fun p q hp hq => hAg p q hp hq (by omega)⟩

theorem backtrack_eq (s1 s2 : List String) {T : Table}
    (hT : ∀ p q, p ≤ s1.length → q ≤ s2.length → T p q = some (levCell s1 s2 p q)) :
    ∀ n i j, i + j ≤ n → i ≤ s1.length + 1 → j ≤ s2.length + 1 →
      backtrack_actions T i j = some (btPure s1 s2 i j) := by
  intro n
  induction n with
  | zero =>
    intro i j h hi hj
    have hi0 : i = 0 := by omega
    subst hi0
    simp [backtrack_actions, btPure_zl]
  | succ n ih =>
    intro i j h hi hj
    match i, j with
    | 0, j => simp [backtrack_actions, btPure_zl]
    | i+1, 0 => simp [backtrack_actions, btPure_sz]
    | i+1, j+1 =>
      have hc : T i j = some (levCell s1 s2 i j) := hT i j (by omega) (by omega)
      cases hact : (levCell s1 s2 i j).2 with
      | Add p t =>
        rw [backtrack_actions, hc]
        simp only [hact]
        rw [ih (i+1) j (by omega) hi (by omega), btPure_add s1 s2 hact]
        rfl
      | Remove p t =>
        rw [backtrack_actions, hc]
        simp only [hact]
        rw [ih i (j+1) (by omega) (by omega) hj, btPure_remove s1 s2 hact]
        rfl
      | Substitute p t u =>
        rw [backtrack_actions, hc]
        simp only [hact]
        rw [ih i j (by omega) (by omega) (by omega), btPure_sub s1 s2 hact]
        rfl
      | Ignore p t =>
        rw [backtrack_actions, hc]
        simp only [hact]
        rw [ih i j (by omega) (by omega) (by omega), btPure_ignore s1 s2 hact]
        rfl

theorem lev_eq_some (s1 s2 : List String) : lev s1 s2 = some (levPure s1 s2) := by
  obtain ⟨T, hT, hcells⟩ := buildTable_some s1 s2
  unfold lev
  rw [hT]
  simp only [Option.some_bind]
  rw [backtrack_eq s1 s2 hcells (s1.length + s2.length + 2) (s1.length+1) (s2.length+1)
    (by omega) le_rfl le_rfl]
  simp [levPure, chrScript]

theorem applyScript_nil_inv {xs ys : List String} (h : applyScript [] xs = some ys) :
    xs = [] ∧ ys = [] := by
  cases xs with
  | nil =>
    simp only [applyScript, Option.some.injEq] at h
    exact ⟨rfl, h.symm⟩
  | cons x xs => simp [applyScript] at h

theorem applyScript_append : ∀ (e1 : List Action) (xs : List String) {us : List String}
    {e2 : List Action} {ys vs : List String},
    applyScript e1 xs = some us → applyScript e2 ys = some vs →
    applyScript (e1 ++ e2) (xs ++ ys) = some (us ++ vs) := by
  intro e1
  induction e1 with
  | nil =>
    intro xs us e2 ys vs h1 h2
    obtain ⟨hx, hu⟩ := applyScript_nil_inv h1
    subst hx; subst hu
    simpa using h2
  | cons a e1 ih =>
    cases a with
    | Add p t =>
      intro xs us e2 ys vs h1 h2
      simp only [applyScript] at h1
      obtain ⟨us', hus', rfl⟩ := Option.map_eq_some'.mp h1
      simp only [List.cons_append, applyScript, List.append_eq]
      rw [ih xs hus' h2]
      rfl
    | Remove p t =>
      intro xs us e2 ys vs h1 h2
      cases xs with
      | nil => simp [applyScript] at h1
      | cons x xs =>
        simp only [applyScript] at h1
        simp only [List.cons_append, applyScript, List.append_eq]
        exact ih xs h1 h2
    | Substitute p t u =>
      intro xs us e2 ys vs h1 h2
      cases xs with
      | nil => simp [applyScript] at h1
      | cons x xs =>
        simp only [applyScript] at h1
        obtain ⟨us', hus', rfl⟩ := Option.map_eq_some'.mp h1
        simp only [List.cons_append, applyScript, List.append_eq]
        rw [ih xs hus' h2]
        rfl
    | Ignore p t =>
      intro xs us e2 ys vs h1 h2
      cases xs with
      | nil => simp [applyScript] at h1
      | cons x xs =>
        simp only [applyScript] at h1
        obtain ⟨us', hus', rfl⟩ := Option.map_eq_some'.mp h1
        simp only [List.cons_append, applyScript, List.append_eq]
        rw [ih xs hus' h2]
        rfl

theorem take_succ_elemAt (l : List String) {i : Nat} (h : i < l.length) :
    l.take (i+1) = l.take i ++ [elemAt l i] := by
  rw [List.take_succ, List.getElem?_eq_getElem h]
  simp [elemAt, List.getD_eq_getElem?_getD, List.getElem?_eq_getElem h]

theorem concat_eq_take {l : List String} {j : Nat} (hj : j ≤ l.length) {ys : List String}
    {x : String} (h : ys ++ [x] = l.take j) :
    ∃ j', j = j' + 1 ∧ ys = l.take j' ∧ x = elemAt l j' := by
  match j with
  | 0 => simp at h
  | j'+1 =>
    rw [take_succ_elemAt l (by omega)] at h
    obtain ⟨h1, h2⟩ := List.append_inj' h (by simp)
    exact ⟨j', rfl, h1, by simpa using h2⟩

theorem master_zero (s1 s2 : List String) :
    applyScript (chrScript s1 s2 0 0) (s1.take 0) = some (s2.take 0) ∧
    scriptCost (chrScript s1 s2 0 0) = (levCell s1 s2 0 0).1 ∧
    consumed1 (chrScript s1 s2 0 0) = 0 ∧ consumed2 (chrScript s1 s2 0 0) = 0 := by
  rw [chr_zero]
  exact ⟨rfl, rfl, rfl, rfl⟩

theorem masterAux (s1 s2 : List String) :
    ∀ n i j, i + j ≤ n → i ≤ s1.length → j ≤ s2.length →
      applyScript (chrScript s1 s2 i j) (s1.take i) = some (s2.take j) ∧
      scriptCost (chrScript s1 s2 i j) = (levCell s1 s2 i j).1 ∧
      consumed1 (chrScript s1 s2 i j) = i ∧
      consumed2 (chrScript s1 s2 i j) = j := by
  intro n
  induction n with
  | zero =>
    intro i j h hi hj
    have hi0 : i = 0 := by omega
    have hj0 : j = 0 := by omega
    subst hi0; subst hj0
    exact master_zero s1 s2
  | succ n ih =>
    intro i j h hi hj
    by_cases hz : i = 0 ∧ j = 0
    · obtain ⟨hi0, hj0⟩ := hz
      subst hi0; subst hj0
      exact master_zero s1 s2
    · cases hact : (levCell s1 s2 i j).2 with
      | Add p t =>
        obtain ⟨j', hj', hp, ht, hcost⟩ := shape_add s1 s2 hact
        subst hj'
        have hrec := chr_add s1 s2 hact
        obtain ⟨h1, h2, h3, h4⟩ := ih i j' (by omega) hi (by omega)
        refine ⟨?_, ?_, ?_, ?_⟩
        · rw [hrec]
          have happ := applyScript_append (chrScript s1 s2 i j') (s1.take i) h1
            (show applyScript [Action.Add p t] [] = some [t] from rfl)
          rw [List.append_nil] at happ
          rw [happ, take_succ_elemAt s2 (show j' < s2.length by omega), ht]
        · rw [hrec, scriptCost_append, h2]
          simp only [scriptCost, isIgnoreAct, List.filter, List.length]
          omega
        · rw [hrec, consumed1_append, h3]
          simp [consumed1, eats1]
        · rw [hrec, consumed2_append, h4]
          simp [consumed2, eats2]
      | Remove p t =>
        obtain ⟨i', hi', hp, ht, hcost⟩ := shape_remove s1 s2 hact
        subst hi'
        have hrec := chr_remove s1 s2 hact
        obtain ⟨h1, h2, h3, h4⟩ := ih i' j (by omega) (by omega) hj
        refine ⟨?_, ?_, ?_, ?_⟩
        · rw [hrec]
          have happ := applyScript_append (chrScript s1 s2 i' j) (s1.take i') h1
            (show applyScript [Action.Remove p t] [elemAt s1 i'] = some [] from rfl)
          rw [List.append_nil] at happ
          rw [← take_succ_elemAt s1 (show i' < s1.length by omega)] at happ
          exact happ
        · rw [hrec, scriptCost_append, h2]
          simp only [scriptCost, isIgnoreAct, List.filter, List.length]
          omega
        · rw [hrec, consumed1_append, h3]
          simp [consumed1, eats1]
        · rw [hrec, consumed2_append, h4]
          simp [consumed2, eats2]
      | Substitute p t u =>
        obtain ⟨i', j', hi', hj', hp, ht, hu, hcost⟩ := shape_sub s1 s2 hact
        subst hi'; subst hj'
        have hrec := chr_sub s1 s2 hact
        obtain ⟨h1, h2, h3, h4⟩ := ih i' j' (by omega) (by omega) (by omega)
        refine ⟨?_, ?_, ?_, ?_⟩
        · rw [hrec]
          have happ := applyScript_append (chrScript s1 s2 i' j') (s1.take i') h1
            (show applyScript [Action.Substitute p t u] [elemAt s1 i'] = some [u] from rfl)
          rw [← take_succ_elemAt s1 (show i' < s1.length by omega)] at happ
          rw [happ, take_succ_elemAt s2 (show j' < s2.length by omega), hu]
        · rw [hrec, scriptCost_append, h2]
          simp only [scriptCost, isIgnoreAct, List.filter, List.length]
          omega
        · rw [hrec, consumed1_append, h3]
          simp [consumed1, eats1]
        · rw [hrec, consumed2_append, h4]
          simp [consumed2, eats2]
      | Ignore p t =>
        rcases shape_ignore s1 s2 hact with ⟨hi0, hj0, _, _⟩ | ⟨i', j', hi', hj', hp, ht, heq2, hcost⟩
        · exact absurd ⟨hi0, hj0⟩ hz
        · subst hi'; subst hj'
          have hrec := chr_ignore s1 s2 hact
          obtain ⟨h1, h2, h3, h4⟩ := ih i' j' (by omega) (by omega) (by omega)
          refine ⟨?_, ?_, ?_, ?_⟩
          · rw [hrec]
            have happ := applyScript_append (chrScript s1 s2 i' j') (s1.take i') h1
              (show applyScript [Action.Ignore p t] [elemAt s1 i'] = some [elemAt s1 i'] from rfl)
            rw [← take_succ_elemAt s1 (show i' < s1.length by omega)] at happ
            rw [happ, take_succ_elemAt s2 (show j' < s2.length by omega), heq2]
          · rw [hrec, scriptCost_append, h2]
            simp only [scriptCost, isIgnoreAct, List.filter, List.length]
            omega
          · rw [hrec, consumed1_append, h3]
            simp [consumed1, eats1]
          · rw [hrec, consumed2_append, h4]
            simp [consumed2, eats2]

theorem applyScript_append_inv : ∀ (e1 : List Action) {e2 : List Action} {xs ys : List String},
    applyScript (e1 ++ e2) xs = some ys →
    ∃ x1 x2 y1 y2, xs = x1 ++ x2 ∧ ys = y1 ++ y2 ∧
      applyScript e1 x1 = some y1 ∧ applyScript e2 x2 = some y2 := by
  intro e1
  induction e1 with
  | nil =>
    intro e2 xs ys h
    exact ⟨[], xs, [], ys, rfl, rfl, rfl, h⟩
  | cons a e1 ih =>
    cases a with
    | Add p t =>
      intro e2 xs ys h
      simp only [List.cons_append, applyScript] at h
      obtain ⟨ys0, hys0, rfl⟩ := Option.map_eq_some'.mp h
      obtain ⟨x1, x2, y1, y2, hx, hy, ha, hb⟩ := ih hys0
      refine ⟨x1, x2, t :: y1, y2, hx, ?_, ?_, hb⟩
      · rw [hy]
        rfl
      · simp only [applyScript]
        rw [ha]
        rfl
    | Remove p t =>
      intro e2 xs ys h
      cases xs with
      | nil => simp [applyScript] at h
      | cons x xs =>
        simp only [List.cons_append, applyScript] at h
        obtain ⟨x1, x2, y1, y2, hx, hy, ha, hb⟩ := ih h
        refine ⟨x :: x1, x2, y1, y2, ?_, hy, ?_, hb⟩
        · rw [hx]
          rfl
        · simp only [applyScript]
          exact ha
    | Substitute p t u =>
      intro e2 xs ys h
      cases xs with
      | nil => simp [applyScript] at h
      | cons x xs =>
        simp only [List.cons_append, applyScript] at h
        obtain ⟨ys0, hys0, rfl⟩ := Option.map_eq_some'.mp h
        obtain ⟨x1, x2, y1, y2, hx, hy, ha, hb⟩ := ih hys0
        refine ⟨x :: x1, x2, u :: y1, y2, ?_, ?_, ?_, hb⟩
        · rw [hx]
          rfl
        · rw [hy]
          rfl
        · simp only [applyScript]
          rw [ha]
          rfl
    | Ignore p t =>
      intro e2 xs ys h
      cases xs with
      | nil => simp [applyScript] at h
      | cons x xs =>
        simp only [List.cons_append, applyScript] at h
        obtain ⟨ys0, hys0, rfl⟩ := Option.map_eq_some'.mp h
        obtain ⟨x1, x2, y1, y2, hx, hy, ha, hb⟩ := ih hys0
        refine ⟨x :: x1, x2, x :: y1, y2, ?_, ?_, ?_, hb⟩
        · rw [hx]
          rfl
        · rw [hy]
          rfl
        · simp only [applyScript]
          rw [ha]
          rfl

theorem applyScript_single_inv {a : Action} {xs ys : List String}
    (h : applyScript [a] xs = some ys) :
    (∃ p t, a = Action.Add p t ∧ xs = [] ∧ ys = [t]) ∨
    (∃ p t z, a = Action.Remove p t ∧ xs = [z] ∧ ys = []) ∨
    (∃ p t u z, a = Action.Substitute p t u ∧ xs = [z] ∧ ys = [u]) ∨
    (∃ p t z, a = Action.Ignore p t ∧ xs = [z] ∧ ys = [z]) := by
  cases a with
  | Add p t =>
    cases xs with
    | nil =>
      simp only [applyScript, Option.map_some', Option.some.injEq] at h
      exact Or.inl ⟨p, t, rfl, rfl, h.symm⟩
    | cons x xs => simp [applyScript] at h
  | Remove p t =>
    match xs with
    | [] => simp [applyScript] at h
    | [z] =>
      simp only [applyScript, Option.some.injEq] at h
      exact Or.inr (Or.inl ⟨p, t, z, rfl, rfl, h.symm⟩)
    | z :: y :: xs => simp [applyScript] at h
  | Substitute p t u =>
    match xs with
    | [] => simp [applyScript] at h
    | [z] =>
      simp only [applyScript, Option.map_some', Option.some.injEq] at h
      exact Or.inr (Or.inr (Or.inl ⟨p, t, u, z, rfl, rfl, h.symm⟩))
    | z :: y :: xs => simp [applyScript] at h
  | Ignore p t =>
    match xs with
    | [] => simp [applyScript] at h
    | [z] =>
      simp only [applyScript, Option.map_some', Option.some.injEq] at h
      exact Or.inr (Or.inr (Or.inr ⟨p, t, z, rfl, rfl, h.symm⟩))
    | z :: y :: xs => simp [applyScript] at h

theorem take_eq_nil_len {l : List String} {i : Nat} (hi : i ≤ l.length) (h : l.take i = []) :
    i = 0 := by
  rcases List.take_eq_nil_iff.mp h with h0 | h0
  · exact h0
  · rw [h0] at hi
    simpa using hi

theorem scriptCost_one_add (p : Nat) (t : String) : scriptCost [Action.Add p t] = 1 := rfl

theorem scriptCost_one_remove (p : Nat) (t : String) : scriptCost [Action.Remove p t] = 1 := rfl

theorem scriptCost_one_sub (p : Nat) (t u : String) :
    scriptCost [Action.Substitute p t u] = 1 := rfl

theorem scriptCost_one_ignore (p : Nat) (t : String) : scriptCost [Action.Ignore p t] = 0 := rfl

theorem optAux (s1 s2 : List String) :
    ∀ (e : List Action) i j, i ≤ s1.length → j ≤ s2.length →
      applyScript e (s1.take i) = some (s2.take j) →
      (levCell s1 s2 i j).1 ≤ scriptCost e := by
  intro e
  induction e using List.reverseRecOn with
  | nil =>
    intro i j hi hj h
    obtain ⟨hx, hy⟩ := applyScript_nil_inv h
    have hi0 : i = 0 := take_eq_nil_len hi hx
    have hj0 : j = 0 := take_eq_nil_len hj hy
    subst hi0; subst hj0
    simp [levCost_zl, scriptCost]
  | append_singleton e' a ihe =>
    intro i j hi hj h
    obtain ⟨x1, x2, y1, y2, hx, hy, ha, hb⟩ := applyScript_append_inv e' h
    rcases applyScript_single_inv hb with ⟨p, t, rfl, rfl, rfl⟩ | ⟨p, t, z, rfl, rfl, rfl⟩ |
      ⟨p, t, u, z, rfl, rfl, rfl⟩ | ⟨p, t, z, rfl, rfl, rfl⟩
    · rw [List.append_nil] at hx
      obtain ⟨j', hj', hy1, ht⟩ := concat_eq_take hj hy.symm
      subst hj'; subst hy1; subst hx
      have hle := ihe i j' hi (by omega) ha
      have hlip := (lipsAux s1 s2 (i + j') i j' le_rfl).1
      rw [scriptCost_append, scriptCost_one_add]
      omega
    · rw [List.append_nil] at hy
      obtain ⟨i', hi', hx1, hz⟩ := concat_eq_take hi hx.symm
      subst hi'; subst hx1; subst hy
      have hle := ihe i' j (by omega) hj ha
      have hlip := (lipsAux s1 s2 (i' + j) i' j le_rfl).2.1
      rw [scriptCost_append, scriptCost_one_remove]
      omega
    · obtain ⟨i', hi', hx1, hz⟩ := concat_eq_take hi hx.symm
      obtain ⟨j', hj', hy1, hu⟩ := concat_eq_take hj hy.symm
      subst hi'; subst hj'; subst hx1; subst hy1
      have hle := ihe i' j' (by omega) (by omega) ha
      have hlip := lipsDiag s1 s2 i' j'
      rw [scriptCost_append, scriptCost_one_sub]
      omega
    · obtain ⟨i', hi', hx1, hz⟩ := concat_eq_take hi hx.symm
      obtain ⟨j', hj', hy1, hz2⟩ := concat_eq_take hj hy.symm
      subst hi'; subst hj'; subst hx1; subst hy1
      have heq : elemAt s1 i' = elemAt s2 j' := by rw [← hz, ← hz2]
      have hle := ihe i' j' (by omega) (by omega) ha
      have hcost : (levCell s1 s2 (i'+1) (j'+1)).1 = (levCell s1 s2 i' j').1 := by
        rw [levCost_ss, if_pos heq]
      rw [scriptCost_append, scriptCost_one_ignore]
      omega

theorem levCell_isLev (s1 s2 : List String) :
    IsLevDistance s1 s2 (levCell s1 s2 s1.length s2.length).1 := by
  constructor
  · obtain ⟨h1, h2, _, _⟩ :=
      masterAux s1 s2 (s1.length + s2.length) s1.length s2.length le_rfl le_rfl le_rfl
    exact ⟨chrScript s1 s2 s1.length s2.length, by simpa [List.take_length] using h1, h2⟩
  · intro e he
    exact optAux s1 s2 e s1.length s2.length le_rfl le_rfl (by simpa [List.take_length] using he)

theorem btPure_diag (s : List String) : ∀ k, btPure s s (k+1) (k+1) =
    ((List.range k).map fun m => Action.Ignore (m+1) (elemAt s m)).reverse ++
      [Action.Ignore 0 blankLine] := by
  intro k
  induction k with
  | zero => rfl
  | succ k ih =>
    have hact : (levCell s s (k+1) (k+1)).2 = Action.Ignore (k+1) (elemAt s k) := by
      rw [levCell_ss, if_pos rfl]
    rw [btPure_ignore s s hact, ih, List.range_succ, List.map_append, List.reverse_append]
    simp

theorem lev_identity_aux (s : List String) :
    levPure s s = (List.range s.length).map fun m => Action.Ignore (m+1) (elemAt s m) := by
  unfold levPure chrScript
  rw [btPure_diag s s.length, List.reverse_append]
  simp

theorem btPure_row0 (s1 s2 : List String) : ∀ j, btPure s1 s2 1 (j+1) =
    ((List.range j).map fun m => Action.Add (m+1) (elemAt s2 m)).reverse ++
      [Action.Ignore 0 blankLine] := by
  intro j
  induction j with
  | zero => rfl
  | succ j ih =>
    have hact : (levCell s1 s2 0 (j+1)).2 = Action.Add (j+1) (elemAt s2 j) := by
      rw [levCell_zs]
    rw [btPure_add s1 s2 hact, ih, List.range_succ, List.map_append, List.reverse_append]
    simp

theorem btPure_col0 (s1 s2 : List String) : ∀ i, btPure s1 s2 (i+1) 1 =
    ((List.range i).map fun m => Action.Remove (m+1) (elemAt s1 m)).reverse ++
      [Action.Ignore 0 blankLine] := by
  intro i
  induction i with
  | zero => rfl
  | succ i ih =>
    have hact : (levCell s1 s2 (i+1) 0).2 = Action.Remove (i+1) (elemAt s1 i) := by
      rw [levCell_sz]
    rw [btPure_remove s1 s2 hact, ih, List.range_succ, List.map_append, List.reverse_append]
    simp

theorem lev_empty1_aux (s2 : List String) :
    levPure [] s2 = (List.range s2.length).map fun m => Action.Add (m+1) (elemAt s2 m) := by
  unfold levPure chrScript
  simp only [List.length_nil]
  rw [btPure_row0, List.reverse_append]
  simp

theorem lev_empty2_aux (s1 : List String) :
    levPure s1 [] = (List.range s1.length).map fun m => Action.Remove (m+1) (elemAt s1 m) := by
  unfold levPure chrScript
  simp only [List.length_nil]
  rw [btPure_col0, List.reverse_append]
  simp

theorem btPure_sentinel (s1 s2 : List String) : ∀ n i j, i + j ≤ n →
    ∃ L, btPure s1 s2 (i+1) (j+1) = L ++ [Action.Ignore 0 blankLine] := by
  intro n
  induction n with
  | zero =>
    intro i j h
    have hi : i = 0 := by omega
    have hj : j = 0 := by omega
    subst hi; subst hj
    exact ⟨[], rfl⟩
  | succ n ih =>
    intro i j h
    by_cases hz : i = 0 ∧ j = 0
    · obtain ⟨h1, h2⟩ := hz
      subst h1; subst h2
      exact ⟨[], rfl⟩
    · cases hact : (levCell s1 s2 i j).2 with
      | Add p t =>
        obtain ⟨j', rfl, _, _, _⟩ := shape_add s1 s2 hact
        obtain ⟨L, hL⟩ := ih i j' (by omega)
        exact ⟨Action.Add p t :: L, by rw [btPure_add s1 s2 hact, hL]; rfl⟩
      | Remove p t =>
        obtain ⟨i', rfl, _, _, _⟩ := shape_remove s1 s2 hact
        obtain ⟨L, hL⟩ := ih i' j (by omega)
        exact ⟨Action.Remove p t :: L, by rw [btPure_remove s1 s2 hact, hL]; rfl⟩
      | Substitute p t u =>
        obtain ⟨i', j', rfl, rfl, _, _, _, _⟩ := shape_sub s1 s2 hact
        obtain ⟨L, hL⟩ := ih i' j' (by omega)
        exact ⟨Action.Substitute p t u :: L, by rw [btPure_sub s1 s2 hact, hL]; rfl⟩
      | Ignore p t =>
        rcases shape_ignore s1 s2 hact with ⟨h1, h2, _, _⟩ | ⟨i', j', rfl, rfl, _, _, _, _⟩
        · exact absurd ⟨h1, h2⟩ hz
        · obtain ⟨L, hL⟩ := ih i' j' (by omega)
          exact ⟨Action.Ignore p t :: L, by rw [btPure_ignore s1 s2 hact, hL]; rfl⟩

theorem btPure_len (s1 s2 : List String) : ∀ n i j, i + j ≤ n →
    (btPure s1 s2 (i+1) (j+1)).length ≤ i + j + 1 := by
  intro n
  induction n with
  | zero =>
    intro i j h
    have hi : i = 0 := by omega
    have hj : j = 0 := by omega
    subst hi; subst hj
    rw [show btPure s1 s2 1 1 = [Action.Ignore 0 blankLine] from rfl]
    simp
  | succ n ih =>
    intro i j h
    by_cases hz : i = 0 ∧ j = 0
    · obtain ⟨h1, h2⟩ := hz
      subst h1; subst h2
      rw [show btPure s1 s2 1 1 = [Action.Ignore 0 blankLine] from rfl]
      simp
    · cases hact : (levCell s1 s2 i j).2 with
      | Add p t =>
        obtain ⟨j', rfl, _, _, _⟩ := shape_add s1 s2 hact
        have hlen := ih i j' (by omega)
        rw [btPure_add s1 s2 hact]
        simp only [List.length_cons]
        omega
      | Remove p t =>
        obtain ⟨i', rfl, _, _, _⟩ := shape_remove s1 s2 hact
        have hlen := ih i' j (by omega)
        rw [btPure_remove s1 s2 hact]
        simp only [List.length_cons]
        omega
      | Substitute p t u =>
        obtain ⟨i', j', rfl, rfl, _, _, _, _⟩ := shape_sub s1 s2 hact
        have hlen := ih i' j' (by omega)
        rw [btPure_sub s1 s2 hact]
        simp only [List.length_cons]
        omega
      | Ignore p t =>
        rcases shape_ignore s1 s2 hact with ⟨h1, h2, _, _⟩ | ⟨i', j', rfl, rfl, _, _, _, _⟩
        · exact absurd ⟨h1, h2⟩ hz
        · have hlen := ih i' j' (by omega)
          rw [btPure_ignore s1 s2 hact]
          simp only [List.length_cons]
          omega

theorem exit_ss (s1 s2 : List String) (i j : Nat) :
    backtrackExit s1 s2 (i+1) (j+1) =
      match (levCell s1 s2 i j).2 with
      | Action.Add _ _ => backtrackExit s1 s2 (i+1) j
      | Action.Remove _ _ => backtrackExit s1 s2 i (j+1)
      | _ => backtrackExit s1 s2 i j := rfl

theorem exit_add (s1 s2 : List String) {i j p : Nat} {t : String}
    (h : (levCell s1 s2 i j).2 = Action.Add p t) :
    backtrackExit s1 s2 (i+1) (j+1) = backtrackExit s1 s2 (i+1) j := by
  rw [exit_ss, h]

theorem exit_remove (s1 s2 : List String) {i j p : Nat} {t : String}
    (h : (levCell s1 s2 i j).2 = Action.Remove p t) :
    backtrackExit s1 s2 (i+1) (j+1) = backtrackExit s1 s2 i (j+1) := by
  rw [exit_ss, h]

theorem exit_sub (s1 s2 : List String) {i j p : Nat} {t u : String}
    (h : (levCell s1 s2 i j).2 = Action.Substitute p t u) :
    backtrackExit s1 s2 (i+1) (j+1) = backtrackExit s1 s2 i j := by
  rw [exit_ss, h]

theorem exit_ignore (s1 s2 : List String) {i j p : Nat} {t : String}
    (h : (levCell s1 s2 i j).2 = Action.Ignore p t) :
    backtrackExit s1 s2 (i+1) (j+1) = backtrackExit s1 s2 i j := by
  rw [exit_ss, h]

theorem exit_zero (s1 s2 : List String) : ∀ n i j, i + j ≤ n →
    backtrackExit s1 s2 (i+1) (j+1) = (0, 0) := by
  intro n
  induction n with
  | zero =>
    intro i j h
    have hi : i = 0 := by omega
    have hj : j = 0 := by omega
    subst hi; subst hj
    rfl
  | succ n ih =>
    intro i j h
    by_cases hz : i = 0 ∧ j = 0
    · obtain ⟨h1, h2⟩ := hz
      subst h1; subst h2
      rfl
    · cases hact : (levCell s1 s2 i j).2 with
      | Add p t =>
        obtain ⟨j', rfl, _, _, _⟩ := shape_add s1 s2 hact
        rw [exit_add s1 s2 hact]
        exact ih i j' (by omega)
      | Remove p t =>
        obtain ⟨i', rfl, _, _, _⟩ := shape_remove s1 s2 hact
        rw [exit_remove s1 s2 hact]
        exact ih i' j (by omega)
      | Substitute p t u =>
        obtain ⟨i', j', rfl, rfl, _, _, _, _⟩ := shape_sub s1 s2 hact
        rw [exit_sub s1 s2 hact]
        exact ih i' j' (by omega)
      | Ignore p t =>
        rcases shape_ignore s1 s2 hact with ⟨h1, h2, _, _⟩ | ⟨i', j', rfl, rfl, _, _, _, _⟩
        · exact absurd ⟨h1, h2⟩ hz
        · rw [exit_ignore s1 s2 hact]
          exact ih i' j' (by omega)

theorem c9Aux (s1 s2 : List String) : ∀ n i j, i + j ≤ n → i ≤ s1.length → j ≤ s2.length →
    ∀ k a, (chrScript s1 s2 i j)[k]? = some a →
      (∀ p t, a = Action.Add p t → p = consumed2 ((chrScript s1 s2 i j).take k) + 1) ∧
      (∀ p t, a = Action.Ignore p t → p = consumed2 ((chrScript s1 s2 i j).take k) + 1) ∧
      (∀ p t, a = Action.Remove p t → p = consumed1 ((chrScript s1 s2 i j).take k) + 1) := by
  intro n
  induction n with
  | zero =>
    intro i j h hi hj k a hk
    have hi0 : i = 0 := by omega
    have hj0 : j = 0 := by omega
    subst hi0; subst hj0
    rw [chr_zero] at hk
    exact Option.noConfusion hk
  | succ n ih =>
    intro i j h hi hj k a hk
    by_cases hz : i = 0 ∧ j = 0
    · obtain ⟨h1, h2⟩ := hz
      subst h1; subst h2
      rw [chr_zero] at hk
      exact Option.noConfusion hk
    · cases hact : (levCell s1 s2 i j).2 with
      | Add p t =>
        obtain ⟨j', rfl, hp, ht, _⟩ := shape_add s1 s2 hact
        have hrec := chr_add s1 s2 hact
        by_cases hlt : k < (chrScript s1 s2 i j').length
        · rw [hrec, List.getElem?_append_left hlt] at hk
          have htr := ih i j' (by omega) hi (by omega) k a hk
          rw [hrec, List.take_append_of_le_length (by omega)]
          exact htr
        · by_cases heqk : k = (chrScript s1 s2 i j').length
          · subst heqk
            rw [hrec, List.getElem?_append_right le_rfl] at hk
            simp only [Nat.sub_self, List.getElem?_cons_zero, Option.some.injEq] at hk
            subst hk
            rw [hrec, List.take_left]
            obtain ⟨_, _, hc1, hc2⟩ := masterAux s1 s2 (i + j') i j' le_rfl hi (by omega)
            refine ⟨?_, ?_, ?_⟩
            · intro p0 t0 hpt
              injection hpt with h1 _
              rw [hc2]
              omega
            · intro p0 t0 hpt
              exact Action.noConfusion hpt
            · intro p0 t0 hpt
              exact Action.noConfusion hpt
          · rw [hrec, List.getElem?_append_right (by omega),
              List.getElem?_eq_none (by simp only [List.length_cons, List.length_nil]; omega)] at hk
            exact Option.noConfusion hk
      | Remove p t =>
        obtain ⟨i', rfl, hp, ht, _⟩ := shape_remove s1 s2 hact
        have hrec := chr_remove s1 s2 hact
        by_cases hlt : k < (chrScript s1 s2 i' j).length
        · rw [hrec, List.getElem?_append_left hlt] at hk
          have htr := ih i' j (by omega) (by omega) hj k a hk
          rw [hrec, List.take_append_of_le_length (by omega)]
          exact htr
        · by_cases heqk : k = (chrScript s1 s2 i' j).length
          · subst heqk
            rw [hrec, List.getElem?_append_right le_rfl] at hk
            simp only [Nat.sub_self, List.getElem?_cons_zero, Option.some.injEq] at hk
            subst hk
            rw [hrec, List.take_left]
            obtain ⟨_, _, hc1, hc2⟩ := masterAux s1 s2 (i' + j) i' j le_rfl (by omega) hj
            refine ⟨?_, ?_, ?_⟩
            · intro p0 t0 hpt
              exact Action.noConfusion hpt
            · intro p0 t0 hpt
              exact Action.noConfusion hpt
            · intro p0 t0 hpt
              injection hpt with h1 _
              rw [hc1]
              omega
          · rw [hrec, List.getElem?_append_right (by omega),
              List.getElem?_eq_none (by simp only [List.length_cons, List.length_nil]; omega)] at hk
            exact Option.noConfusion hk
      | Substitute p t u =>
        obtain ⟨i', j', rfl, rfl, hp, ht, hu, _⟩ := shape_sub s1 s2 hact
        have hrec := chr_sub s1 s2 hact
        by_cases hlt : k < (chrScript s1 s2 i' j').length
        · rw [hrec, List.getElem?_append_left hlt] at hk
          have htr := ih i' j' (by omega) (by omega) (by omega) k a hk
          rw [hrec, List.take_append_of_le_length (by omega)]
          exact htr
        · by_cases heqk : k = (chrScript s1 s2 i' j').length
          · subst heqk
            rw [hrec, List.getElem?_append_right le_rfl] at hk
            simp only [Nat.sub_self, List.getElem?_cons_zero, Option.some.injEq] at hk
            subst hk
            refine ⟨?_, ?_, ?_⟩
            · intro p0 t0 hpt
              exact Action.noConfusion hpt
            · intro p0 t0 hpt
              exact Action.noConfusion hpt
            · intro p0 t0 hpt
              exact Action.noConfusion hpt
          · rw [hrec, List.getElem?_append_right (by omega),
              List.getElem?_eq_none (by simp only [List.length_cons, List.length_nil]; omega)] at hk
            exact Option.noConfusion hk
      | Ignore p t =>
        rcases shape_ignore s1 s2 hact with ⟨h1, h2, _, _⟩ | ⟨i', j', rfl, rfl, hp, ht, heq2, _⟩
        · exact absurd ⟨h1, h2⟩ hz
        · have hrec := chr_ignore s1 s2 hact
          by_cases hlt : k < (chrScript s1 s2 i' j').length
          · rw [hrec, List.getElem?_append_left hlt] at hk
            have htr := ih i' j' (by omega) (by omega) (by omega) k a hk
            rw [hrec, List.take_append_of_le_length (by omega)]
            exact htr
          · by_cases heqk : k = (chrScript s1 s2 i' j').length
            · subst heqk
              rw [hrec, List.getElem?_append_right le_rfl] at hk
              simp only [Nat.sub_self, List.getElem?_cons_zero, Option.some.injEq] at hk
              subst hk
              rw [hrec, List.take_left]
              obtain ⟨_, _, hc1, hc2⟩ := masterAux s1 s2 (i' + j') i' j' le_rfl (by omega) (by omega)
              refine ⟨?_, ?_, ?_⟩
              · intro p0 t0 hpt
                exact Action.noConfusion hpt
              · intro p0 t0 hpt
                injection hpt with h1 _
                rw [hc2]
                omega
              · intro p0 t0 hpt
                exact Action.noConfusion hpt
            · rw [hrec, List.getElem?_append_right (by omega),
                List.getElem?_eq_none (by simp only [List.length_cons, List.length_nil]; omega)] at hk
              exact Option.noConfusion hk

theorem fillRow0Tr_fst (b : Bool) (s2 : List String) (n1 n2 : Nat) :
    ∀ m st, (fillRow0Tr b s2 n1 n2 st m).1 = fillRow0 s2 st.1 m := by
  intro m
  induction m with
  | zero => intro st; rfl
  | succ m ih =>
    intro st
    show setCell (fillRow0Tr b s2 n1 n2 st m).1 0 (m+1)
      (some (m+1, Action.Add (m+1) (elemAt s2 m))) = fillRow0 s2 st.1 (m+1)
    rw [ih st]
    rfl

theorem fillCol0Tr_fst (b : Bool) (s1 : List String) (n1 n2 : Nat) :
    ∀ m st, (fillCol0Tr b s1 n1 n2 st m).1 = fillCol0 s1 st.1 m := by
  intro m
  induction m with
  | zero => intro st; rfl
  | succ m ih =>
    intro st
    show setCell (fillCol0Tr b s1 n1 n2 st m).1 (m+1) 0
      (some (m+1, Action.Remove (m+1) (elemAt s1 m))) = fillCol0 s1 st.1 (m+1)
    rw [ih st]
    rfl

theorem fillCellTr_fst (b : Bool) (s1 s2 : List String) (n1 n2 : Nat)
    (st : Table × List (List (List (Option (Nat × Action))))) (i j : Nat) :
    (fillCellTr b s1 s2 n1 n2 st i j).map Prod.fst = fillCell s1 s2 st.1 i j := by
  unfold fillCellTr
  cases hx : fillCell s1 s2 st.1 i j <;> simp [hx]

theorem fillRowCellsTr_fst (b : Bool) (s1 s2 : List String) (n1 n2 i : Nat) :
    ∀ m st, (fillRowCellsTr b s1 s2 n1 n2 st i m).map Prod.fst =
      fillRowCells s1 s2 st.1 i m := by
  intro m
  induction m with
  | zero => intro st; rfl
  | succ m ih =>
    intro st
    have hm := ih st
    show ((fillRowCellsTr b s1 s2 n1 n2 st i m).bind fun st' =>
      fillCellTr b s1 s2 n1 n2 st' i m).map Prod.fst =
      (fillRowCells s1 s2 st.1 i m).bind fun u => fillCell s1 s2 u i m
    cases hx : fillRowCellsTr b s1 s2 n1 n2 st i m with
    | none =>
      rw [hx] at hm
      rw [← hm]
      simp
    | some st' =>
      rw [hx] at hm
      rw [← hm]
      simp only [Option.map_some', Option.some_bind]
      exact fillCellTr_fst b s1 s2 n1 n2 st' i m

theorem fillAllTr_fst (b : Bool) (s1 s2 : List String) (n1 n2 : Nat) :
    ∀ m st, (fillAllTr b s1 s2 n1 n2 st m).map Prod.fst = fillAll s1 s2 st.1 m := by
  intro m
  induction m with
  | zero => intro st; rfl
  | succ m ih =>
    intro st
    have hm := ih st
    show ((fillAllTr b s1 s2 n1 n2 st m).bind fun st' =>
      fillRowCellsTr b s1 s2 n1 n2 st' m s2.length).map Prod.fst =
      (fillAll s1 s2 st.1 m).bind fun u => fillRowCells s1 s2 u m s2.length
    cases hx : fillAllTr b s1 s2 n1 n2 st m with
    | none =>
      rw [hx] at hm
      rw [← hm]
      simp
    | some st' =>
      rw [hx] at hm
      rw [← hm]
      simp only [Option.map_some', Option.some_bind]
      exact fillRowCellsTr_fst b s1 s2 n1 n2 m s2.length st'

theorem levTr_fst (b : Bool) (s1 s2 : List String) : (levTr b s1 s2).1 = lev s1 s2 := by
  have hinit : (fillCol0Tr b s1 s1.length s2.length
      (fillRow0Tr b s2 s1.length s2.length
        (setCell emptyTable 0 0 (some (0, Action.Ignore 0 blankLine)), []) s2.length)
      s1.length).1 = initTable s1 s2 := by
    rw [fillCol0Tr_fst, fillRow0Tr_fst]
    rfl
  have hall := fillAllTr_fst b s1 s2 s1.length s2.length s1.length
    (fillCol0Tr b s1 s1.length s2.length
      (fillRow0Tr b s2 s1.length s2.length
        (setCell emptyTable 0 0 (some (0, Action.Ignore 0 blankLine)), []) s2.length)
      s1.length)
  rw [hinit] at hall
  unfold lev buildTable
  rw [← hall]
  simp only [levTr]
  cases hx : fillAllTr b s1 s2 s1.length s2.length
    (fillCol0Tr b s1 s1.length s2.length
      (fillRow0Tr b s2 s1.length s2.length
        (setCell emptyTable 0 0 (some (0, Action.Ignore 0 blankLine)), []) s2.length)
      s1.length) s1.length with
  | none => simp
  | some st3 => simp

/-- Claim C1: the cost stored at table cell `(n1, n2)` by the builder is the
true Levenshtein distance between the two sequences (unit cost for
insert, delete, substitute; zero for a match), and the number of
non-`Ignore` operations in the script returned by `lev` equals that cost. -/
theorem claim1_cost_is_levenshtein (s1 s2 : List String) :
    ∃ T c a l, buildTable s1 s2 = some T ∧ T s1.length s2.length = some (c, a) ∧
      IsLevDistance s1 s2 c ∧ lev s1 s2 = some l ∧ scriptCost l = c := by
  obtain ⟨T, hT, hcells⟩ := buildTable_some s1 s2
  have hc := hcells s1.length s2.length le_rfl le_rfl
  obtain ⟨_, h2, _, _⟩ :=
    masterAux s1 s2 (s1.length + s2.length) s1.length s2.length le_rfl le_rfl le_rfl
  refine ⟨T, (levCell s1 s2 s1.length s2.length).1, (levCell s1 s2 s1.length s2.length).2,
    levPure s1 s2, hT, ?_, levCell_isLev s1 s2, lev_eq_some s1 s2, h2⟩
  rw [hc]

/-- Claim C2: at every interior cell with distinct elements, the builder picks
among the `Remove`, `Add`, `Substitute` candidates (evaluated in that literal
order) the first-seen minimum, so cost ties are broken with the fixed
priority `Remove` over `Add` over `Substitute`. -/
theorem claim2_tie_break (s1 s2 : List String) (i j : Nat) (hi : i < s1.length)
    (hj : j < s2.length) (hne : elemAt s1 i ≠ elemAt s2 j) :
    levCell s1 s2 (i+1) (j+1) =
      if 1 + (levCell s1 s2 i (j+1)).1 ≤ 1 + (levCell s1 s2 (i+1) j).1 ∧
         1 + (levCell s1 s2 i (j+1)).1 ≤ 1 + (levCell s1 s2 i j).1 then
        (1 + (levCell s1 s2 i (j+1)).1, Action.Remove (i+1) (elemAt s1 i))
      else if 1 + (levCell s1 s2 (i+1) j).1 ≤ 1 + (levCell s1 s2 i j).1 then
        (1 + (levCell s1 s2 (i+1) j).1, Action.Add (j+1) (elemAt s2 j))
      else
        (1 + (levCell s1 s2 i j).1, Action.Substitute (j+1) (elemAt s1 i) (elemAt s2 j)) := by
  rw [levCell_ss, if_neg hne]
  simp only [pickMin, List.foldl]
  split_ifs <;> first | rfl | (exfalso; omega)

/-- Claim C2 witness: concrete instance of the tie-break selection at the
single interior cell of `diff(["a"], ["b"])`, where `Substitute` alone
attains the minimum. -/
theorem claim2_tie_break_witness :
    levCell [litA] [litB] 1 1 = (1, Action.Substitute 1 litA litB) := by
  have h := claim2_tie_break [litA] [litB] 0 0 (by decide) (by decide) (by decide)
  rw [h]
  decide

/-- Claim C3: applying the script returned by `lev s1 s2` to `s1` (skip on
`Ignore`, insert on `Add`, delete on `Remove`, replace on `Substitute`)
reproduces `s2` exactly. -/
theorem claim3_round_trip (s1 s2 : List String) :
    ∃ l, lev s1 s2 = some l ∧ applyScript l s1 = some s2 := by
  obtain ⟨h1, _, _, _⟩ :=
    masterAux s1 s2 (s1.length + s2.length) s1.length s2.length le_rfl le_rfl le_rfl
  refine ⟨levPure s1 s2, lev_eq_some s1 s2, ?_⟩
  simpa [levPure, List.take_length] using h1

/-- Claim C4: after the fill pass every table cell `(i, j)` within bounds is
non-empty, and its stored cost is the minimum number of
`Add`/`Remove`/`Substitute` operations (`Ignore` costing zero) transforming
the first `i` elements of sequence 1 into the first `j` elements of
sequence 2. -/
theorem claim4_table_invariant (s1 s2 : List String) (i j : Nat)
    (hi : i ≤ s1.length) (hj : j ≤ s2.length) :
    ∃ T c a, buildTable s1 s2 = some T ∧ T i j = some (c, a) ∧
      (∃ e, applyScript e (s1.take i) = some (s2.take j) ∧ scriptCost e = c) ∧
      (∀ e, applyScript e (s1.take i) = some (s2.take j) → c ≤ scriptCost e) := by
  obtain ⟨T, hT, hcells⟩ := buildTable_some s1 s2
  obtain ⟨h1, h2, _, _⟩ := masterAux s1 s2 (i + j) i j le_rfl hi hj
  refine ⟨T, (levCell s1 s2 i j).1, (levCell s1 s2 i j).2, hT, ?_,
    ⟨chrScript s1 s2 i j, h1, h2⟩, fun e he => optAux s1 s2 e i j hi hj he⟩
  rw [hcells i j hi hj]

/-- Claim C4 witness: the invariant instantiated at cell `(1, 1)` of
`diff(["a"], ["b"])`. -/
theorem claim4_table_invariant_witness :
    ∃ T c a, buildTable [litA] [litB] = some T ∧ T 1 1 = some (c, a) ∧
      (∃ e, applyScript e ([litA].take 1) = some ([litB].take 1) ∧ scriptCost e = c) ∧
      (∀ e, applyScript e ([litA].take 1) = some ([litB].take 1) → c ≤ scriptCost e) :=
  claim4_table_invariant [litA] [litB] 1 1 (by decide) (by decide)

/-- Claim C5: `lev s s` returns a script of `Ignore` operations only, one
per element of `s`, in original order (with positions `1 .. n`). -/
theorem claim5_identity (s : List String) :
    lev s s = some ((List.range s.length).map fun k => Action.Ignore (k+1) (elemAt s k)) := by
  rw [lev_eq_some, lev_identity_aux]

/-- Claim C6: `lev [] s2` returns exactly `len s2` `Add` operations in
sequence-2 order, and `lev s1 []` returns exactly `len s1` `Remove`
operations in sequence-1 order. -/
theorem claim6_pure_insert_delete (s1 s2 : List String) :
    lev [] s2 = some ((List.range s2.length).map fun k => Action.Add (k+1) (elemAt s2 k)) ∧
    lev s1 [] = some ((List.range s1.length).map fun k => Action.Remove (k+1) (elemAt s1 k)) := by
  constructor
  · rw [lev_eq_some, lev_empty1_aux]
  · rw [lev_eq_some, lev_empty2_aux]

/-- Claim C7: for all inputs the fill pass and the backtracking walk succeed
with no empty cell ever read, so `lev` always returns a script — the
`unwrap` error branches are unreachable. -/
theorem claim7_totality (s1 s2 : List String) :
    ∃ T l, buildTable s1 s2 = some T ∧
      backtrack_actions T (s1.length + 1) (s2.length + 1) = some l ∧
      lev s1 s2 = some (l.reverse.drop 1) := by
  obtain ⟨T, hT, hcells⟩ := buildTable_some s1 s2
  have hb := backtrack_eq s1 s2 hcells (s1.length + s2.length + 2)
    (s1.length+1) (s2.length+1) (by omega) le_rfl le_rfl
  refine ⟨T, btPure s1 s2 (s1.length+1) (s2.length+1), hT, hb, ?_⟩
  unfold lev
  rw [hT]
  simp only [Option.some_bind]
  rw [hb]
  rfl

/-- Claim C8: the backtracking walk from `(n1+1, n2+1)` ends with both loop
counters at zero simultaneously, the reconstruction buffer ends with the
`(0,0)` sentinel `Ignore` which is dropped from the returned script, and
the script has length at most `n1 + n2`. -/
theorem claim8_backtrack_shape (s1 s2 : List String) :
    backtrackExit s1 s2 (s1.length + 1) (s2.length + 1) = (0, 0) ∧
    (∃ L, btPure s1 s2 (s1.length + 1) (s2.length + 1) = L ++ [Action.Ignore 0 blankLine] ∧
      lev s1 s2 = some L.reverse) ∧
    ∃ l, lev s1 s2 = some l ∧ l.length ≤ s1.length + s2.length := by
  refine ⟨exit_zero s1 s2 (s1.length + s2.length) s1.length s2.length le_rfl, ?_, ?_⟩
  · obtain ⟨L, hL⟩ := btPure_sentinel s1 s2 (s1.length + s2.length) s1.length s2.length le_rfl
    refine ⟨L, hL, ?_⟩
    rw [lev_eq_some]
    congr 1
    unfold levPure chrScript
    rw [hL, List.reverse_append]
    simp
  · refine ⟨levPure s1 s2, lev_eq_some s1 s2, ?_⟩
    have hlen := btPure_len s1 s2 (s1.length + s2.length) s1.length s2.length le_rfl
    unfold levPure chrScript
    rw [List.length_drop, List.length_reverse]
    omega

/-- Claim C9: in every script returned by `lev`, the `pos` of each `Add` and
`Ignore` is the number of sequence-2 elements consumed through that
operation (the DP-table `j` coordinate at fill time), the `pos` of each
`Remove` is the number of sequence-1 elements consumed (the `i`
coordinate); positions are not renumbered into a consecutive sequence. -/
theorem claim9_pos_fields (s1 s2 : List String) (l : List Action)
    (hl : lev s1 s2 = some l) (k : Nat) :
    (∀ p t, l[k]? = some (Action.Add p t) → p = consumed2 (l.take k) + 1) ∧
    (∀ p t, l[k]? = some (Action.Ignore p t) → p = consumed2 (l.take k) + 1) ∧
    (∀ p t, l[k]? = some (Action.Remove p t) → p = consumed1 (l.take k) + 1) := by
  rw [lev_eq_some] at hl
  injection hl with hl
  subst hl
  refine ⟨?_, ?_, ?_⟩
  · intro p t hk
    exact (c9Aux s1 s2 (s1.length + s2.length) s1.length s2.length le_rfl le_rfl le_rfl
      k (Action.Add p t) hk).1 p t rfl
  · intro p t hk
    exact (c9Aux s1 s2 (s1.length + s2.length) s1.length s2.length le_rfl le_rfl le_rfl
      k (Action.Ignore p t) hk).2.1 p t rfl
  · intro p t hk
    exact (c9Aux s1 s2 (s1.length + s2.length) s1.length s2.length le_rfl le_rfl le_rfl
      k (Action.Remove p t) hk).2.2 p t rfl

/-- Claim C9 witness: in `diff(["a","b"], ["a"])` the returned script is
`[Ignore 1 "a", Remove 2 "b"]`; the `Remove` at index 1 carries position
`2`, one more than the number of sequence-1 elements consumed before it. -/
theorem claim9_pos_fields_witness :
    (2 : Nat) = consumed1 (([Action.Ignore 1 litA, Action.Remove 2 litB]).take 1) + 1 := by
  have h := claim9_pos_fields [litA, litB] [litA] [Action.Ignore 1 litA, Action.Remove 2 litB]
    (by rw [lev_eq_some]; decide) 1
  exact h.2.2 2 litB (by decide)

/-- Claim C10: the script returned by `lev` does not depend on the trace
flag — running with tracing on or off yields the same script — and the
result is a pure function of the inputs. -/
theorem claim10_trace_independence (s1 s2 : List String) :
    (∀ b : Bool, (levTr b s1 s2).1 = lev s1 s2) ∧
    (levTr true s1 s2).1 = (levTr false s1 s2).1 := by
  refine ⟨fun b => levTr_fst b s1 s2, ?_⟩
  rw [levTr_fst, levTr_fst]

end LevDiff
